import Mathlib

/-!
Shallow embedding of the utf.rs UTF-8 codec (src/lib.rs) and proofs of the
spec claims about it.

Bytes and 32-bit words are modelled as `Nat` with explicit `% 2 ^ 8` / `% 2 ^ 32`
truncation where the Rust code can wrap.  The lazy decoder `DecodeUtf8`, an
iterator over a peekable byte iterator, is modelled by explicit state passing
over a `List Nat` of remaining bytes: each pull returns `none` at end of input
or `some (outcome, remaining)`.  `char` values are represented by their scalar
value as a `Nat`.
-/

namespace UtfRs

/-- `u8::leading_zeros`: the number of leading zero bits in the 8-bit value `y`. -/
def u8_leading_zeros (y : Nat) : Nat :=
  if 128 ≤ y then 0
  else if 64 ≤ y then 1
  else if 32 ≤ y then 2
  else if 16 ≤ y then 3
  else if 8 ≤ y then 4
  else if 4 ≤ y then 5
  else if 2 ≤ y then 6
  else if 1 ≤ y then 7
  else 8

/-- `(!b).leading_zeros()` for a byte `b`: the number of leading one bits of `b`
(the Rust code's length classification of a leading byte). -/
def leadingOnes8 (b : Nat) : Nat := u8_leading_zeros (255 - b)

/-- `u32::leading_zeros` for `x < 2 ^ 32`. -/
def u32_leading_zeros (x : Nat) : Nat := if x = 0 then 32 else 31 - Nat.log2 x

/-- The legal Unicode scalar values: what `core::char::from_u32` accepts. -/
def isScalar (x : Nat) : Prop := x < 0x110000 ∧ ¬(0xD800 ≤ x ∧ x < 0xE000)

instance (x : Nat) : Decidable (isScalar x) := by
  unfold isScalar; exact inferInstance

/-- `core::char::from_u32`, on scalar values as `Nat`. -/
def from_u32 (x : Nat) : Option Nat := if isScalar x then some x else none

/-- `char::len_utf8` of a scalar value. -/
def len_utf8 (c : Nat) : Nat :=
  if c < 0x80 then 1 else if c < 0x800 then 2 else if c < 0x10000 then 3 else 4

/-- The continuation-byte loop of `<DecodeUtf8 as Iterator>::next`
(`for _ in 0..l-1 { match self.0.peek() ... }`): consume up to `k` continuation
bytes, folding their low 6 bits into the `u32` accumulator `x`.  On a missing or
ill-shaped byte it stops with `error`, returning the remaining input with the
offending byte (if any) still unconsumed (the peeked byte is not advanced past). -/
def contAccum : Nat → Nat → List Nat → Except (List Nat) (Nat × List Nat)
  | 0, x, rest => .ok (x, rest)
  | _ + 1, _, [] => .error []
  | k + 1, x, b :: tl =>
    if b &&& 0xC0 = 0x80 then
      contAccum k ((x <<< 6 % 2 ^ 32) ||| (b &&& 0x3F)) tl
    else .error (b :: tl)

/-- `<DecodeUtf8 as Iterator>::next` on a list of remaining bytes: `none` when
the source is exhausted, otherwise the decode outcome together with the bytes
left for the following pull. -/
def decodeUtf8Next : List Nat → Option (Except Unit Nat × List Nat)
  | [] => none
  | b :: rest =>
    if b &&& 0x80 = 0 then some (.ok b, rest)
    else
      let l := leadingOnes8 b
      if l < 2 ∨ 6 < l then some (.error (), rest)
      else
        match contAccum (l - 1) (b &&& (0x7F >>> l)) rest with
        | .error rest' => some (.error (), rest')
        | .ok (x, rest') =>
          match from_u32 x with
          | some c => if l = len_utf8 c then some (.ok c, rest') else some (.error (), rest')
          | none => some (.error (), rest')

/-- Run the lazy decoder to exhaustion, fuelled; each successful pull consumes at
least one byte, so fuel `bs.length` always suffices. -/
def decodeUtf8Go : Nat → List Nat → List (Except Unit Nat)
  | 0, _ => []
  | fuel + 1, bs =>
    match decodeUtf8Next bs with
    | none => []
    | some (r, rest) => r :: decodeUtf8Go fuel rest

/-- The full outcome sequence of `decode_utf8` over a finite byte list. -/
def decodeUtf8All (bs : List Nat) : List (Except Unit Nat) :=
  decodeUtf8Go bs.length bs

/-- `decode_slice_u32`: decode one `u32` from the front of a byte buffer,
returning the value and the (nonzero) number of bytes consumed. -/
def decode_slice_u32 : List Nat → Option (Nat × Nat)
  | [] => none
  | b0 :: rest =>
    let bs_l := rest.length + 1
    let l := leadingOnes8 b0
    if bs_l < l then none
    else if l = 0 then some (b0, 1)
    else
      some ((rest.take (l - 1)).foldl
              (fun x b => (x <<< 6 % 2 ^ 32) ||| (b &&& 0x3F))
              (b0 &&& (0x7F >>> l)), l)

/-- `decode_slice`: `decode_slice_u32` filtered through `from_u32`. -/
def decode_slice (bs : List Nat) : Option (Nat × Nat) :=
  (decode_slice_u32 bs).bind fun p => (from_u32 p.1).map fun c => (c, p.2)

/-- The static length table `ls` of `<u32 as UtfExt>::try_encode_utf8`,
indexed by `u32::leading_zeros` of the value. -/
def lsTable : List Nat :=
  [0, 6, 6, 6, 6, 6, 5, 5,
   5, 5, 5, 4, 4, 4, 4, 4,
   3, 3, 3, 3, 3, 2, 2, 2,
   2, 1, 1, 1, 1, 1, 1, 1, 1]

/-- `ls[self.leading_zeros() as usize]`: the encoded length the table selects. -/
def encLen (x : Nat) : Nat := lsTable.getD (u32_leading_zeros x) 0

/-- The reverse write loop of `try_encode_utf8`
(`for b in bs.iter_mut().rev() { *b = self as u8 & 0x3F | 0x80; self >>= 6 }`):
returns the continuation bytes in the order written (last position first)
together with the remaining shifted value. -/
def contBytesRev : Nat → Nat → List Nat × Nat
  | 0, x => ([], x)
  | k + 1, x =>
    let p := contBytesRev k (x >>> 6)
    (((x % 2 ^ 8) &&& 0x3F ||| 0x80) :: p.1, p.2)

/-- The byte sequence `try_encode_utf8` writes for `x` on the success path:
the leading byte `self as u8 | first` followed by the continuation bytes. -/
def encWritten (x : Nat) : List Nat :=
  let l := encLen x
  let first := 255 - (255 >>> l)
  let p := contBytesRev (l - 1) x
  ((p.2 % 2 ^ 8) ||| (if 1 < l then first else 0)) :: p.1.reverse

/-- `<u32 as UtfExt>::try_encode_utf8`.  The result pairs the returned value
(`some written_sub_buffer` or `none`) with the final state of the destination
buffer, so that the absence of writes on the failure paths is explicit:
`bs.get_mut(0..l)?` fails when the buffer is shorter than `l`, and
`split_first_mut()?` fails when `l = 0`, both before any byte is written. -/
def try_encode_utf8 (x : Nat) (bs : List Nat) : Option (List Nat) × List Nat :=
  let l := encLen x
  if bs.length < l then (none, bs)
  else if l = 0 then (none, bs)
  else (some (encWritten x), encWritten x ++ bs.drop l)

/-- Modelled from the spec: the required-length thresholds of the encoder
contract in the spec (`< 0x80` gives 1, `< 0x800` gives 2, `< 0x10000` gives 3,
`< 0x200000` gives 4, `< 0x4000000` gives 5, else 6), for comparison with the
table-driven `encLen`. -/
def specRequiredLen (x : Nat) : Nat :=
  if x < 0x80 then 1
  else if x < 0x800 then 2
  else if x < 0x10000 then 3
  else if x < 0x200000 then 4
  else if x < 0x4000000 then 5
  else 6

/-- The `k` big-endian continuation bytes of the value `v`: byte `j` (counting
from the end, `j = k-1` first) is `0x80` plus the `j`-th 6-bit group of `v`. -/
def beBytes (v k : Nat) : List Nat :=
  (List.range k).reverse.map fun j => 128 + (v >>> (6 * j)) % 64

/-- The `l`-byte (over-)long encoding of `v` described by the claims: a leading
byte with `l` leading one bits carrying the high payload bits, followed by
`l - 1` continuation bytes. -/
def overlongBytes (v l : Nat) : List Nat :=
  ((255 - (255 >>> l)) ||| (v >>> (6 * (l - 1)))) :: beBytes v (l - 1)

/-! ### General numeric helper lemmas -/

/-- Disjoint bitwise or is addition: when `a` is a multiple of `2 ^ k` and
`b < 2 ^ k`, `a ||| b = a + b`. -/
theorem lor_eq_add : ∀ (k a b : Nat), a % 2 ^ k = 0 → b < 2 ^ k → a ||| b = a + b := by
  intro k
  induction k with
  | zero =>
    intro a b _ hb
    have hb0 : b = 0 := by simpa using hb
    subst hb0; simp
  | succ k ih =>
    intro a b ha hb
    obtain ⟨t, ht⟩ : 2 ^ (k + 1) ∣ a := Nat.dvd_of_mod_eq_zero ha
    have ha2 : a = 2 * (2 ^ k * t) := by rw [ht, Nat.pow_succ]; ring
    have haMod : a % 2 = 0 := by rw [ha2]; exact Nat.mul_mod_right 2 _
    have haDiv : a / 2 = 2 ^ k * t := by
      rw [ha2]; exact Nat.mul_div_cancel_left _ (by norm_num)
    have h1 : (a / 2) % 2 ^ k = 0 := by rw [haDiv]; exact Nat.mul_mod_right _ _
    have h2 : b / 2 < 2 ^ k := by
      rw [Nat.div_lt_iff_lt_mul (by norm_num)]
      calc b < 2 ^ (k + 1) := hb
        _ = 2 ^ k * 2 := by rw [Nat.pow_succ]
    have hOrDiv : (a ||| b) / 2 = a / 2 + b / 2 := by
      rw [Nat.or_div_two]; exact ih _ _ h1 h2
    have hOrMod : (a ||| b) % 2 = b % 2 := by
      have hiff := @Nat.or_mod_two_eq_one a b
      have m1 := Nat.mod_two_eq_zero_or_one (a ||| b)
      have m2 := Nat.mod_two_eq_zero_or_one b
      omega
    have e1 := Nat.div_add_mod (a ||| b) 2
    have e2 := Nat.div_add_mod a 2
    have e3 := Nat.div_add_mod b 2
    omega

/-- `x &&& (2 ^ n - 1)` masks to `x % 2 ^ n`, stated with the literal masks the
code uses. -/
theorem and_mask (x n : Nat) : x &&& (2 ^ n - 1) = x % 2 ^ n :=
  Nat.and_pow_two_sub_one_eq_mod x n

set_option maxRecDepth 8192 in
/-- Byte fact: testing the high bit of a byte. -/
theorem byte_and128 : ∀ b < 256, (b &&& 128 = 0 ↔ b < 128) := by decide

set_option maxRecDepth 8192 in
/-- Byte fact: the continuation-byte test `b & 0xC0 == 0x80` holds exactly for
bytes in `[0x80, 0xBF]`. -/
theorem byte_and192 : ∀ b < 256, (b &&& 192 = 128 ↔ 128 ≤ b ∧ b < 192) := by decide

/-- The leading-ones classification of an ASCII byte is 0. -/
theorem leadingOnes8_ascii (b : Nat) (hb : b < 128) : leadingOnes8 b = 0 := by
  unfold leadingOnes8 u8_leading_zeros
  split_ifs <;> omega

/-- A byte with at least 5 leading ones is at least `0xF8`. -/
theorem leadingOnes8_ge5 (b : Nat) (hb : b < 256) (h : 5 ≤ leadingOnes8 b) : 248 ≤ b := by
  unfold leadingOnes8 u8_leading_zeros at h
  split_ifs at h <;> omega

/-- `len_utf8` is between 1 and 4. -/
theorem len_utf8_bounds (c : Nat) : 1 ≤ len_utf8 c ∧ len_utf8 c ≤ 4 := by
  unfold len_utf8; split_ifs <;> omega

/-- The table lookup `lsTable.getD i 0`, characterised by index ranges. -/
theorem lsTable_getD : ∀ i ≤ 32, lsTable.getD i 0 =
    (if i = 0 then 0 else if i ≤ 5 then 6 else if i ≤ 10 then 5 else if i ≤ 15 then 4
     else if i ≤ 20 then 3 else if i ≤ 24 then 2 else 1) := by decide

/-- The table-driven `encLen` agrees with the spec's threshold function below
`2 ^ 31` and is 0 from `2 ^ 31` on. -/
theorem encLen_eq (x : Nat) (hx : x < 2 ^ 32) :
    encLen x = if x < 2 ^ 31 then specRequiredLen x else 0 := by
  rcases Nat.eq_zero_or_pos x with rfl | hpos
  · rw [if_pos (by norm_num : (0 : Nat) < 2 ^ 31)]; rfl
  · have hne : x ≠ 0 := by omega
    unfold encLen
    rw [show u32_leading_zeros x = 31 - Nat.log2 x from by simp [u32_leading_zeros, hne]]
    rw [lsTable_getD _ (by omega)]
    have hcase : ∀ L B : Nat, 2 ^ L ≤ x → x < 2 ^ B →
        L ≤ Nat.log2 x ∧ Nat.log2 x < B := fun L B hL hB =>
      ⟨(Nat.le_log2 hne).mpr hL, (Nat.log2_lt hne).mpr hB⟩
    by_cases c1 : x < 0x80
    · have h := (Nat.log2_lt hne).mpr (show x < 2 ^ 7 by norm_num; omega)
      simp only [specRequiredLen]; norm_num; split_ifs <;> omega
    · by_cases c2 : x < 0x800
      · have h := hcase 7 11 (by norm_num; omega) (by norm_num; omega)
        simp only [specRequiredLen]; norm_num; split_ifs <;> omega
      · by_cases c3 : x < 0x10000
        · have h := hcase 11 16 (by norm_num; omega) (by norm_num; omega)
          simp only [specRequiredLen]; norm_num; split_ifs <;> omega
        · by_cases c4 : x < 0x200000
          · have h := hcase 16 21 (by norm_num; omega) (by norm_num; omega)
            simp only [specRequiredLen]; norm_num; split_ifs <;> omega
          · by_cases c5 : x < 0x4000000
            · have h := hcase 21 26 (by norm_num; omega) (by norm_num; omega)
              simp only [specRequiredLen]; norm_num; split_ifs <;> omega
            · by_cases c6 : x < 0x80000000
              · have h := hcase 26 31 (by norm_num; omega) (by norm_num; omega)
                simp only [specRequiredLen]; norm_num; split_ifs <;> omega
              · have h := hcase 31 32 (by norm_num; omega) (by norm_num; omega)
                simp only [specRequiredLen]; norm_num; split_ifs <;> omega

/-- For legal scalar values the spec thresholds coincide with `char::len_utf8`. -/
theorem specRequiredLen_scalar (v : Nat) (hv : v < 0x110000) :
    specRequiredLen v = len_utf8 v := by
  unfold specRequiredLen len_utf8; split_ifs <;> omega

/-! ### Structure of the encoder's write loop and the continuation bytes -/

/-- Mask rewrite: `&&& 0x3F` is `% 64`. -/
theorem and63_mod (x : Nat) : x &&& 0x3F = x % 64 := by
  rw [show (0x3F : Nat) = 2 ^ 6 - 1 by norm_num, Nat.and_pow_two_sub_one_eq_mod]

/-- The bytes the reverse write loop produces: the `0x80`-tagged 6-bit groups of
`x`, lowest group first. -/
theorem contBytesRev_fst : ∀ (k x : Nat),
    (contBytesRev k x).1 = (List.range k).map fun j => 128 + (x >>> (6 * j)) % 64 := by
  intro k
  induction k with
  | zero => intro x; simp [contBytesRev]
  | succ k ih =>
    intro x
    simp only [contBytesRev, ih, List.range_succ_eq_map, List.map_cons, List.map_map,
      List.cons.injEq]
    constructor
    · rw [and63_mod, Nat.or_comm,
        lor_eq_add 6 128 ((x % 2 ^ 8) % 64) (by norm_num) (by omega)]
      simp
      omega

    · refine List.map_congr_left fun j _ => ?_
      simp only [Function.comp]
      rw [show 6 * (j + 1) = 6 + 6 * j by ring, Nat.shiftRight_add]

/-- The value left after the reverse write loop: `x` shifted right `6 k` bits. -/
theorem contBytesRev_snd : ∀ (k x : Nat), (contBytesRev k x).2 = x >>> (6 * k) := by
  intro k
  induction k with
  | zero => intro x; simp [contBytesRev]
  | succ k ih =>
    intro x
    simp only [contBytesRev, ih]
    rw [show 6 * (k + 1) = 6 + 6 * k by ring, Nat.shiftRight_add]

theorem beBytes_length (v k : Nat) : (beBytes v k).length = k := by simp [beBytes]

theorem beBytes_succ (v k : Nat) :
    beBytes v (k + 1) = (128 + (v >>> (6 * k)) % 64) :: beBytes v k := by
  unfold beBytes
  rw [List.range_succ]
  simp

/-- `encWritten` is the leading byte followed by the big-endian continuation
bytes of the value. -/
theorem encWritten_eq (x : Nat) :
    encWritten x =
      ((x >>> (6 * (encLen x - 1))) % 2 ^ 8
          ||| (if 1 < encLen x then 255 - (255 >>> encLen x) else 0))
        :: beBytes x (encLen x - 1) := by
  simp only [encWritten, beBytes]
  rw [contBytesRev_fst, contBytesRev_snd]
  simp [List.map_reverse]

/-- The lazy decoder's continuation loop over the `k` big-endian continuation
bytes of `v` succeeds and accumulates `x * 64 ^ k + v % 64 ^ k`, consuming
exactly those bytes. -/
theorem contAccum_beBytes : ∀ (k x v : Nat) (rest : List Nat),
    (x + 1) * 64 ^ k ≤ 2 ^ 32 →
    contAccum k x (beBytes v k ++ rest) = .ok (x * 64 ^ k + v % 64 ^ k, rest) := by
  intro k
  induction k with
  | zero =>
    intro x v rest _
    simp [beBytes, contAccum, Nat.mod_one]
  | succ k ih =>
    intro x v rest h
    have h64 : (64 : Nat) ≤ 64 ^ (k + 1) := Nat.le_self_pow (by omega) 64
    have hmul64 : (x + 1) * 64 ≤ 2 ^ 32 :=
      Nat.le_trans (Nat.mul_le_mul_left _ h64) h
    rw [beBytes_succ, List.cons_append]
    have hb256 : 128 + (v >>> (6 * k)) % 64 < 256 := by omega
    have hshape : (128 + (v >>> (6 * k)) % 64) &&& 0xC0 = 0x80 :=
      (byte_and192 _ hb256).mpr (by omega)
    rw [contAccum, if_pos hshape]
    have hx64 : x <<< 6 % 2 ^ 32 = x * 64 := by
      have hlt : x * 64 < 2 ^ 32 := by omega
      have hsl : x <<< 6 = x * 64 := by omega
      rw [hsl, Nat.mod_eq_of_lt hlt]
    have hand : (128 + (v >>> (6 * k)) % 64) &&& 0x3F = (v >>> (6 * k)) % 64 := by
      rw [and63_mod]; omega
    rw [hx64, hand, lor_eq_add 6 (x * 64) ((v >>> (6 * k)) % 64) (by omega) (by omega)]
    have hnext : (x * 64 + (v >>> (6 * k)) % 64 + 1) * 64 ^ k ≤ 2 ^ 32 := by
      have h1 : x * 64 + (v >>> (6 * k)) % 64 + 1 ≤ (x + 1) * 64 := by omega
      calc (x * 64 + (v >>> (6 * k)) % 64 + 1) * 64 ^ k
          ≤ (x + 1) * 64 * 64 ^ k := Nat.mul_le_mul_right _ h1
        _ = (x + 1) * 64 ^ (k + 1) := by ring
        _ ≤ 2 ^ 32 := h
    rw [ih _ v rest hnext]
    have hval : (x * 64 + v >>> (6 * k) % 64) * 64 ^ k + v % 64 ^ k
        = x * 64 ^ (k + 1) + v % 64 ^ (k + 1) := by
      have hq : (v >>> (6 * k)) % 64 = v / 64 ^ k % 64 := by
        rw [Nat.shiftRight_eq_div_pow, Nat.pow_mul]
      have hmod : v % 64 ^ (k + 1) = v % 64 ^ k + 64 ^ k * (v / 64 ^ k % 64) := by
        rw [pow_succ]; exact Nat.mod_mul
      rw [hq, hmod]
      ring
    exact congrArg (fun n => Except.ok (n, rest)) hval

/-- The bulk slice decoder's fold over the same continuation bytes computes the
same accumulated value. -/
theorem foldl_beBytes : ∀ (k x v : Nat),
    (x + 1) * 64 ^ k ≤ 2 ^ 32 →
    (beBytes v k).foldl (fun x b => (x <<< 6 % 2 ^ 32) ||| (b &&& 0x3F)) x
      = x * 64 ^ k + v % 64 ^ k := by
  intro k
  induction k with
  | zero => intro x v _; simp [beBytes, Nat.mod_one]
  | succ k ih =>
    intro x v h
    have h64 : (64 : Nat) ≤ 64 ^ (k + 1) := Nat.le_self_pow (by omega) 64
    have hmul64 : (x + 1) * 64 ≤ 2 ^ 32 :=
      Nat.le_trans (Nat.mul_le_mul_left _ h64) h
    rw [beBytes_succ, List.foldl_cons]
    have hx64 : x <<< 6 % 2 ^ 32 = x * 64 := by
      have hlt : x * 64 < 2 ^ 32 := by omega
      have hsl : x <<< 6 = x * 64 := by omega
      rw [hsl, Nat.mod_eq_of_lt hlt]
    have hand : (128 + (v >>> (6 * k)) % 64) &&& 0x3F = (v >>> (6 * k)) % 64 := by
      rw [and63_mod]; omega
    rw [hx64, hand, lor_eq_add 6 (x * 64) ((v >>> (6 * k)) % 64) (by omega) (by omega)]
    have hnext : (x * 64 + (v >>> (6 * k)) % 64 + 1) * 64 ^ k ≤ 2 ^ 32 := by
      have h1 : x * 64 + (v >>> (6 * k)) % 64 + 1 ≤ (x + 1) * 64 := by omega
      calc (x * 64 + (v >>> (6 * k)) % 64 + 1) * 64 ^ k
          ≤ (x + 1) * 64 * 64 ^ k := Nat.mul_le_mul_right _ h1
        _ = (x + 1) * 64 ^ (k + 1) := by ring
        _ ≤ 2 ^ 32 := h
    rw [ih _ v hnext]
    have hval : (x * 64 + v >>> (6 * k) % 64) * 64 ^ k + v % 64 ^ k
        = x * 64 ^ (k + 1) + v % 64 ^ (k + 1) := by
      have hq : (v >>> (6 * k)) % 64 = v / 64 ^ k % 64 := by
        rw [Nat.shiftRight_eq_div_pow, Nat.pow_mul]
      have hmod : v % 64 ^ (k + 1) = v % 64 ^ k + 64 ^ k * (v / 64 ^ k % 64) := by
        rw [pow_succ]; exact Nat.mod_mul
      rw [hq, hmod]
      ring
    exact hval

/-! ### Decoding a canonical (or overlong) `l`-byte sequence -/

/-- For `2 ≤ l ≤ 6` and payload `q < 2 ^ (7 - l)`, the byte
`(255 - (255 >>> l)) + q` has exactly `l` leading one bits. -/
theorem leadingOnes8_first (l q : Nat) (h2 : 2 ≤ l) (h6 : l ≤ 6) (hq : q < 2 ^ (7 - l)) :
    leadingOnes8 (255 - (255 >>> l) + q) = l := by
  have d2 : ∀ q' < 32, leadingOnes8 (255 - (255 >>> 2) + q') = 2 := by decide
  have d3 : ∀ q' < 16, leadingOnes8 (255 - (255 >>> 3) + q') = 3 := by decide
  have d4 : ∀ q' < 8, leadingOnes8 (255 - (255 >>> 4) + q') = 4 := by decide
  have d5 : ∀ q' < 4, leadingOnes8 (255 - (255 >>> 5) + q') = 5 := by decide
  have d6 : ∀ q' < 2, leadingOnes8 (255 - (255 >>> 6) + q') = 6 := by decide
  interval_cases l
  · exact d2 q hq
  · exact d3 q hq
  · exact d4 q hq
  · exact d5 q hq
  · exact d6 q hq

/-- The leading byte of a multi-byte sequence has its high bit set. -/
theorem first_highbit (l q : Nat) (h2 : 2 ≤ l) (h6 : l ≤ 6) (hq : q < 2 ^ (7 - l)) :
    ¬(255 - (255 >>> l) + q) &&& 0x80 = 0 := by
  have d2 : ∀ q' < 32, ¬(255 - (255 >>> 2) + q') &&& 0x80 = 0 := by decide
  have d3 : ∀ q' < 16, ¬(255 - (255 >>> 3) + q') &&& 0x80 = 0 := by decide
  have d4 : ∀ q' < 8, ¬(255 - (255 >>> 4) + q') &&& 0x80 = 0 := by decide
  have d5 : ∀ q' < 4, ¬(255 - (255 >>> 5) + q') &&& 0x80 = 0 := by decide
  have d6 : ∀ q' < 2, ¬(255 - (255 >>> 6) + q') &&& 0x80 = 0 := by decide
  interval_cases l
  · exact d2 q hq
  · exact d3 q hq
  · exact d4 q hq
  · exact d5 q hq
  · exact d6 q hq

/-- The accumulator seeded with a leading-byte payload stays inside `u32`. -/
theorem canonical_bound (l q : Nat) (h6 : l ≤ 6) (hq : q < 2 ^ (7 - l)) :
    (q + 1) * 64 ^ (l - 1) ≤ 2 ^ 32 := by
  have hp : 2 ^ (7 - l) * 64 ^ (l - 1) ≤ 2 ^ 32 := by
    rw [show (64 : Nat) = 2 ^ 6 from rfl, ← Nat.pow_mul, ← Nat.pow_add]
    exact Nat.pow_le_pow_right (by norm_num) (by omega)
  calc (q + 1) * 64 ^ (l - 1) ≤ 2 ^ (7 - l) * 64 ^ (l - 1) :=
        Nat.mul_le_mul_right _ (by omega)
    _ ≤ 2 ^ 32 := hp

/-- Masking the leading byte with `0x7F >> l` recovers the payload `q`. -/
theorem first_and_mask (l q : Nat) (h2 : 2 ≤ l) (h6 : l ≤ 6) (hq : q < 2 ^ (7 - l)) :
    (255 - (255 >>> l) + q) &&& (0x7F >>> l) = q := by
  have d2 : ∀ q' < 32, (255 - (255 >>> 2) + q') &&& (0x7F >>> 2) = q' := by decide
  have d3 : ∀ q' < 16, (255 - (255 >>> 3) + q') &&& (0x7F >>> 3) = q' := by decide
  have d4 : ∀ q' < 8, (255 - (255 >>> 4) + q') &&& (0x7F >>> 4) = q' := by decide
  have d5 : ∀ q' < 4, (255 - (255 >>> 5) + q') &&& (0x7F >>> 5) = q' := by decide
  have d6 : ∀ q' < 2, (255 - (255 >>> 6) + q') &&& (0x7F >>> 6) = q' := by decide
  interval_cases l
  · exact d2 q hq
  · exact d3 q hq
  · exact d4 q hq
  · exact d5 q hq
  · exact d6 q hq

/-- Exhausted input produces no further outcomes. -/
theorem decodeUtf8Go_nil (fuel : Nat) : decodeUtf8Go fuel [] = [] := by
  cases fuel <;> rfl

/-- Pulling once on a canonical-shape `l`-byte sequence (`2 ≤ l ≤ 6`) consumes
all of it and applies the final validation to the accumulated value `v`. -/
theorem decodeNext_canonical (v l : Nat) (h2 : 2 ≤ l) (h6 : l ≤ 6)
    (hv : v < 2 ^ (6 * (l - 1)) * 2 ^ (7 - l)) :
    decodeUtf8Next ((255 - (255 >>> l) + (v >>> (6 * (l - 1)))) :: beBytes v (l - 1)) =
      some ((if isScalar v ∧ l = len_utf8 v then .ok v else .error ()), []) := by
  set q := v >>> (6 * (l - 1)) with hqdef
  have hq : q < 2 ^ (7 - l) := by
    rw [hqdef, Nat.shiftRight_eq_div_pow]
    rw [Nat.div_lt_iff_lt_mul (Nat.two_pow_pos _)]
    simpa [Nat.mul_comm] using hv
  have hB : ¬(255 - (255 >>> l) + q) &&& 0x80 = 0 := first_highbit l q h2 h6 hq
  have hbound : (q + 1) * 64 ^ (l - 1) ≤ 2 ^ 32 := canonical_bound l q h6 hq
  have hACC : contAccum (l - 1) q (beBytes v (l - 1)) =
      .ok (q * 64 ^ (l - 1) + v % 64 ^ (l - 1), []) := by
    simpa using contAccum_beBytes (l - 1) q v [] hbound
  have hval : q * 64 ^ (l - 1) + v % 64 ^ (l - 1) = v := by
    have hq' : q = v / 64 ^ (l - 1) := by
      rw [hqdef, Nat.shiftRight_eq_div_pow, Nat.pow_mul]
    rw [hq', Nat.mul_comm]
    exact Nat.div_add_mod v (64 ^ (l - 1))
  simp only [decodeUtf8Next]
  rw [if_neg hB, leadingOnes8_first l q h2 h6 hq]
  rw [if_neg (by omega : ¬(l < 2 ∨ 6 < l))]
  rw [first_and_mask l q h2 h6 hq, hACC, hval]
  by_cases hs : isScalar v
  · by_cases hl : l = len_utf8 v
    · simp [from_u32, hs, hl]
    · simp [from_u32, hs, hl]
  · simp [from_u32, hs]

/-- The bulk slice decoder on the same canonical-shape sequence returns the
accumulated value and the full length, with no validation beyond `from_u32`. -/
theorem decode_slice_u32_canonical (v l : Nat) (h2 : 2 ≤ l) (h6 : l ≤ 6)
    (hv : v < 2 ^ (6 * (l - 1)) * 2 ^ (7 - l)) :
    decode_slice_u32 ((255 - (255 >>> l) + (v >>> (6 * (l - 1)))) :: beBytes v (l - 1)) =
      some (v, l) := by
  set q := v >>> (6 * (l - 1)) with hqdef
  have hq : q < 2 ^ (7 - l) := by
    rw [hqdef, Nat.shiftRight_eq_div_pow]
    rw [Nat.div_lt_iff_lt_mul (Nat.two_pow_pos _)]
    simpa [Nat.mul_comm] using hv
  have hbound : (q + 1) * 64 ^ (l - 1) ≤ 2 ^ 32 := canonical_bound l q h6 hq
  have hval : q * 64 ^ (l - 1) + v % 64 ^ (l - 1) = v := by
    have hq' : q = v / 64 ^ (l - 1) := by
      rw [hqdef, Nat.shiftRight_eq_div_pow, Nat.pow_mul]
    rw [hq', Nat.mul_comm]
    exact Nat.div_add_mod v (64 ^ (l - 1))
  simp only [decode_slice_u32]
  rw [beBytes_length, leadingOnes8_first l q h2 h6 hq]
  rw [if_neg (by omega : ¬(l - 1 + 1 < l)), if_neg (by omega : ¬(l = 0))]
  rw [first_and_mask l q h2 h6 hq]
  rw [List.take_of_length_le (by rw [beBytes_length])]
  rw [foldl_beBytes (l - 1) q v hbound, hval]

/-- The claims' overlong construction coincides with the canonical-shape cons
cell once the payload fits. -/
theorem overlongBytes_eq (v l : Nat) (h2 : 2 ≤ l) (h6 : l ≤ 6)
    (hv : v < 2 ^ (6 * (l - 1)) * 2 ^ (7 - l)) :
    overlongBytes v l = (255 - (255 >>> l) + (v >>> (6 * (l - 1)))) :: beBytes v (l - 1) := by
  have hq : v >>> (6 * (l - 1)) < 2 ^ (7 - l) := by
    rw [Nat.shiftRight_eq_div_pow]
    rw [Nat.div_lt_iff_lt_mul (Nat.two_pow_pos _)]
    simpa [Nat.mul_comm] using hv
  unfold overlongBytes
  congr 1
  have hFmod : (255 - (255 >>> l)) % 2 ^ (7 - l) = 0 := by
    interval_cases l <;> decide
  exact lor_eq_add (7 - l) _ _ hFmod hq

/-! ### Bridging the encoder output to the canonical shape -/

/-- The leading-byte payload extracted by shifting is below its capacity. -/
theorem payload_lt (v l : Nat) (hv : v < 2 ^ (6 * (l - 1)) * 2 ^ (7 - l)) :
    v >>> (6 * (l - 1)) < 2 ^ (7 - l) := by
  rw [Nat.shiftRight_eq_div_pow, Nat.div_lt_iff_lt_mul (Nat.two_pow_pos _)]
  simpa [Nat.mul_comm] using hv

/-- The length marker `!(!0u8 >> l)` has zeros in its payload bits. -/
theorem firstMod (l : Nat) (h2 : 2 ≤ l) (h6 : l ≤ 6) :
    (255 - (255 >>> l)) % 2 ^ (7 - l) = 0 := by
  interval_cases l <;> decide

/-- On legal scalar values the encoder's table length equals `char::len_utf8`. -/
theorem encLen_scalar (v : Nat) (hv : isScalar v) : encLen v = len_utf8 v := by
  have hlt : v < 0x110000 := hv.1
  have h := encLen_eq v (by omega)
  rw [if_pos (by omega : v < 2 ^ 31)] at h
  rw [h]
  exact specRequiredLen_scalar v hlt

/-- The encoder writes a single identity byte for ASCII values. -/
theorem encWritten_ascii (v : Nat) (h1 : encLen v = 1) (hv : v < 128) :
    encWritten v = [v] := by
  have hsh : v >>> (6 * (1 - 1)) = v := by simp
  have hmod : v % 2 ^ 8 = v := Nat.mod_eq_of_lt (by omega)
  rw [encWritten_eq, h1, hsh, hmod, if_neg (by norm_num : ¬(1 : Nat) < 1), Nat.or_zero]
  simp [beBytes]

/-- For multi-byte lengths the encoder writes exactly the canonical-shape
sequence: length marker plus payload, then big-endian continuation bytes. -/
theorem encWritten_canonical (v : Nat) (h2 : 2 ≤ encLen v) (h6 : encLen v ≤ 6)
    (hv : v < 2 ^ (6 * (encLen v - 1)) * 2 ^ (7 - encLen v)) :
    encWritten v =
      (255 - (255 >>> encLen v) + (v >>> (6 * (encLen v - 1))))
        :: beBytes v (encLen v - 1) := by
  have hq : v >>> (6 * (encLen v - 1)) < 2 ^ (7 - encLen v) := payload_lt v (encLen v) hv
  have hq256 : v >>> (6 * (encLen v - 1)) < 2 ^ 8 :=
    Nat.lt_of_lt_of_le hq (Nat.pow_le_pow_right (by norm_num) (by omega))
  rw [encWritten_eq]
  congr 1
  rw [if_pos (by omega : 1 < encLen v), Nat.mod_eq_of_lt hq256, Nat.or_comm]
  exact lor_eq_add (7 - encLen v) _ _ (firstMod (encLen v) h2 h6) hq

/-- Scalar values that need at least two bytes fit the payload capacity of
their canonical length. -/
theorem scalar_payload_bound (v : Nat) (hv128 : 128 ≤ v) (hv : v < 0x110000) :
    v < 2 ^ (6 * (len_utf8 v - 1)) * 2 ^ (7 - len_utf8 v) := by
  unfold len_utf8
  split_ifs <;> norm_num <;> omega

/-- A buffer whose single pull consumes everything decodes to exactly one
outcome. -/
theorem decodeUtf8All_one (bs : List Nat) (r : Except Unit Nat)
    (h : decodeUtf8Next bs = some (r, [])) (hne : bs ≠ []) :
    decodeUtf8All bs = [r] := by
  obtain ⟨b, tl, rfl⟩ : ∃ b tl, bs = b :: tl := by
    cases bs with
    | nil => exact absurd rfl hne
    | cons b tl => exact ⟨b, tl, rfl⟩
  show decodeUtf8Go (tl.length + 1) (b :: tl) = [r]
  rw [decodeUtf8Go, h]
  simp [decodeUtf8Go_nil]

/-! ### The claims -/

/-- C7: for every value and every destination buffer shorter than the required
encoded length, `try_encode_utf8` returns `None` and leaves the buffer
untouched.  (The `char` implementation delegates to the `u32` one byte for
byte, so the `u32` statement covers both.) -/
theorem claim7_encode_atomic_failure (x : Nat) (bs : List Nat) (hx : x < 2 ^ 32)
    (hbs : bs.length < encLen x) :
    try_encode_utf8 x bs = (none, bs) := by
  simp only [try_encode_utf8]
  rw [if_pos hbs]

theorem claim7_witness : try_encode_utf8 0x2665 [0, 0] = (none, [0, 0]) := by
  have hL : encLen 0x2665 = 3 := by
    rw [encLen_eq _ (by norm_num)]
    norm_num [specRequiredLen]
  exact claim7_encode_atomic_failure 0x2665 [0, 0] (by norm_num) (by rw [hL]; decide)

/-- C8: every byte below `0x80` decodes to itself, consuming one byte, in both
the lazy and the bulk paths. -/
theorem claim8_ascii_fast_path (b : Nat) (rest : List Nat) (hb : b < 0x80) :
    decodeUtf8Next (b :: rest) = some (Except.ok b, rest) ∧
    decode_slice (b :: rest) = some (b, 1) := by
  have h128 : b &&& 128 = 0 := (byte_and128 b (by omega)).mpr hb
  constructor
  · simp [decodeUtf8Next, h128]
  · have hl : leadingOnes8 b = 0 := leadingOnes8_ascii b hb
    have hs : isScalar b := ⟨by omega, by omega⟩
    simp [decode_slice, decode_slice_u32, hl, from_u32, hs]

theorem claim8_witness :
    decodeUtf8Next [0x41, 0xFF] = some (Except.ok 0x41, [0xFF]) ∧
    decode_slice [0x41, 0xFF] = some (0x41, 1) :=
  claim8_ascii_fast_path 0x41 [0xFF] (by norm_num)

/-- C9: values with no leading zero bits (`x ≥ 2 ^ 31`) are rejected by the
encoder for every buffer: the table maps them to length 0 and the split of the
empty sub-buffer fails, so `None` is returned with the buffer untouched. -/
theorem claim9_huge_values_unencodable (x : Nat) (bs : List Nat)
    (h1 : 2 ^ 31 ≤ x) (h2 : x < 2 ^ 32) :
    try_encode_utf8 x bs = (none, bs) := by
  have hl : encLen x = 0 := by
    have h := encLen_eq x h2
    rwa [if_neg (by omega : ¬x < 2 ^ 31)] at h
  simp only [try_encode_utf8, hl]
  rw [if_neg (by omega : ¬bs.length < 0)]
  simp

theorem claim9_witness : try_encode_utf8 0x80000000 [7, 7, 7, 7, 7, 7] = (none, [7, 7, 7, 7, 7, 7]) :=
  claim9_huge_values_unencodable 0x80000000 [7, 7, 7, 7, 7, 7] (by norm_num) (by norm_num)

/-- C2 counterexample: on the bare continuation byte `0x80`, `decode_slice`
succeeds with `(0, 1)` while the lazy decoder's first (and only) pull yields
the invalid-sequence error, so the two decoders do not agree bit-for-bit. -/
theorem claim2_counterexample :
    decode_slice [0x80] = some (0, 1) ∧
    decodeUtf8Next [0x80] = some (Except.error (), []) ∧
    decodeUtf8All [0x80] = [Except.error ()] := by
  refine ⟨rfl, rfl, rfl⟩

/-- C3 counterexample: the 2-byte overlong encoding `[0xC1, 0x81]` of `0x41`
(canonical length 1) is accepted by `decode_slice`, which returns the decoded
scalar instead of rejecting the sequence. -/
theorem claim3_counterexample :
    decode_slice [0xC1, 0x81] = some (0x41, 2) ∧ len_utf8 0x41 = 1 := by
  refine ⟨rfl, rfl⟩

/-- C6 counterexample: for `x = 0x80000000` (`≥ 0x4000000`, so the claimed
length is 6) and a 6-byte buffer, `try_encode_utf8` returns `None` instead of
writing 6 bytes. -/
theorem claim6_counterexample :
    (try_encode_utf8 0x80000000 [0, 0, 0, 0, 0, 0]).1 = none ∧
    (0x4000000 : Nat) ≤ 0x80000000 := by
  have hL : encLen 0x80000000 = 0 := by
    rw [encLen_eq _ (by norm_num)]
    norm_num [specRequiredLen]
  constructor
  · simp only [try_encode_utf8, hL]
    rw [if_neg (by simp : ¬([0, 0, 0, 0, 0, 0] : List Nat).length < 0)]
    simp
  · norm_num

/-- C4: when a multi-byte sequence's continuation bytes are all consumed
successfully, the pull yields `Ok` exactly when the accumulated value is a
legal scalar and the sequence length equals its canonical UTF-8 length;
otherwise it yields the invalid-sequence error.  In particular a sequence
accumulating to a surrogate in `[0xD800, 0xDFFF]` is always rejected. -/
theorem claim4_lazy_validation (b x : Nat) (rest rest' : List Nat)
    (hB : ¬b &&& 0x80 = 0) (hl2 : 2 ≤ leadingOnes8 b) (hl6 : leadingOnes8 b ≤ 6)
    (hacc : contAccum (leadingOnes8 b - 1) (b &&& (0x7F >>> leadingOnes8 b)) rest
      = .ok (x, rest')) :
    decodeUtf8Next (b :: rest) =
      some ((if isScalar x ∧ leadingOnes8 b = len_utf8 x then Except.ok x
             else Except.error ()), rest')
    ∧ (0xD800 ≤ x ∧ x < 0xE000 →
        decodeUtf8Next (b :: rest) = some (Except.error (), rest')) := by
  have hmain : decodeUtf8Next (b :: rest) =
      some ((if isScalar x ∧ leadingOnes8 b = len_utf8 x then Except.ok x
             else Except.error ()), rest') := by
    simp only [decodeUtf8Next]
    rw [if_neg hB, if_neg (by omega : ¬(leadingOnes8 b < 2 ∨ 6 < leadingOnes8 b)), hacc]
    by_cases hs : isScalar x
    · by_cases hl : leadingOnes8 b = len_utf8 x
      · simp [from_u32, hs, hl]
      · simp [from_u32, hs, hl]
    · simp [from_u32, hs]
  refine ⟨hmain, fun hsur => ?_⟩
  rw [hmain]
  rw [if_neg (by rintro ⟨⟨-, hns⟩, -⟩; exact hns hsur)]

theorem claim4_witness : decodeUtf8Next [0xED, 0xA0, 0x80] = some (Except.error (), []) :=
  (claim4_lazy_validation 0xED 0xD800 [0xA0, 0x80] []
    (by decide) (by decide) (by decide) rfl).2 (by norm_num)

/-- C10: a leading byte with 5 or 6 leading one bits can never produce a
successfully decoded scalar: classification admits it, but the final check
against the canonical length (at most 4) always fails, so the pull yields the
invalid-sequence error. -/
theorem claim10_extended_lengths_never_ok (b : Nat) (rest : List Nat) (hb : b < 256)
    (h5 : 5 ≤ leadingOnes8 b) (h6 : leadingOnes8 b ≤ 6) :
    ∃ rest', decodeUtf8Next (b :: rest) = some (Except.error (), rest') := by
  have hge : 248 ≤ b := leadingOnes8_ge5 b hb h5
  have hB : ¬b &&& 0x80 = 0 := by
    rw [byte_and128 b hb]
    omega
  simp only [decodeUtf8Next]
  rw [if_neg hB, if_neg (by omega : ¬(leadingOnes8 b < 2 ∨ 6 < leadingOnes8 b))]
  cases hacc : contAccum (leadingOnes8 b - 1) (b &&& (0x7F >>> leadingOnes8 b)) rest with
  | error r => exact ⟨r, rfl⟩
  | ok p =>
    obtain ⟨x, rest'⟩ := p
    refine ⟨rest', ?_⟩
    show (match from_u32 x with
          | some c => if leadingOnes8 b = len_utf8 c then some (Except.ok c, rest')
                      else some (Except.error (), rest')
          | none => some (Except.error (), rest')) = some (Except.error (), rest')
    have hle := len_utf8_bounds x
    by_cases hs : isScalar x
    · rw [show from_u32 x = some x from by simp [from_u32, hs]]
      show (if leadingOnes8 b = len_utf8 x then some (Except.ok x, rest')
            else some (Except.error (), rest')) = some (Except.error (), rest')
      rw [if_neg (by omega)]
    · simp [from_u32, hs]

theorem claim10_witness :
    ∃ rest', decodeUtf8Next [0xFB, 0xBF] = some (Except.error (), rest') :=
  claim10_extended_lengths_never_ok 0xFB [0xBF] (by norm_num) (by decide) (by decide)

/-- C5: whenever the continuation loop needs a byte and the next one is absent
or not of the form `10xxxxxx`, the pull stops with the invalid-sequence error
without consuming that byte (it stays at the head of the remainder); as a
consequence, one malformed leading byte followed by a valid ASCII byte decodes
to exactly two outcomes, the error and then the ASCII scalar. -/
theorem claim5_self_synchronization :
    (∀ (k x : Nat), contAccum (k + 1) x [] = .error []) ∧
    (∀ (k x b : Nat) (tl : List Nat), ¬b &&& 0xC0 = 0x80 →
      contAccum (k + 1) x (b :: tl) = .error (b :: tl)) ∧
    (∀ m a : Nat, 0x80 ≤ m → m < 256 → a < 0x80 →
      decodeUtf8All [m, a] = [Except.error (), Except.ok a]) := by
  refine ⟨fun k x => rfl, fun k x b tl hb => by rw [contAccum, if_neg hb], ?_⟩
  intro m a hm hm' ha
  have hB : ¬m &&& 0x80 = 0 := by
    rw [byte_and128 m hm']
    omega
  have hcont : ¬a &&& 0xC0 = 0x80 := by
    rw [byte_and192 a (by omega)]
    omega
  have hA : decodeUtf8Next [a] = some (Except.ok a, []) := by
    simp [decodeUtf8Next, (byte_and128 a (by omega)).mpr ha]
  have hstep : decodeUtf8Next [m, a] = some (Except.error (), [a]) := by
    simp only [decodeUtf8Next]
    rw [if_neg hB]
    by_cases hl : leadingOnes8 m < 2 ∨ 6 < leadingOnes8 m
    · rw [if_pos hl]
    · rw [if_neg hl]
      obtain ⟨k, hk⟩ : ∃ k, leadingOnes8 m - 1 = k + 1 := ⟨leadingOnes8 m - 2, by omega⟩
      rw [hk, contAccum, if_neg hcont]
  show decodeUtf8Go 2 [m, a] = [Except.error (), Except.ok a]
  rw [decodeUtf8Go, hstep]
  show Except.error () :: decodeUtf8Go 1 [a] = _
  rw [decodeUtf8Go, hA]
  rfl

theorem claim5_witness :
    decodeUtf8All [0xE2, 0x41] = [Except.error (), Except.ok 0x41] :=
  claim5_self_synchronization.2.2 0xE2 0x41 (by norm_num) (by norm_num) (by norm_num)

/-- C1: for every legal scalar value `v` and destination buffer of at least
`len_utf8 v` bytes, encoding succeeds; `decode_slice` on the written bytes
returns exactly `(v, len_utf8 v)`, and the lazy decoder over those bytes
yields exactly the single outcome `Ok v`. -/
theorem claim1_round_trip (v : Nat) (bs : List Nat) (hv : isScalar v)
    (hlen : len_utf8 v ≤ bs.length) :
    (try_encode_utf8 v bs).1 = some (encWritten v) ∧
    (encWritten v).length = len_utf8 v ∧
    decode_slice (encWritten v) = some (v, len_utf8 v) ∧
    decodeUtf8All (encWritten v) = [Except.ok v] := by
  have hL : encLen v = len_utf8 v := encLen_scalar v hv
  have hlb := len_utf8_bounds v
  have henc : (try_encode_utf8 v bs).1 = some (encWritten v) := by
    simp only [try_encode_utf8]
    rw [if_neg (by omega : ¬bs.length < encLen v), if_neg (by omega : ¬encLen v = 0)]
  have hlength : (encWritten v).length = len_utf8 v := by
    rw [encWritten_eq]
    simp [beBytes_length]
    omega
  by_cases ha : v < 0x80
  · have h1 : len_utf8 v = 1 := by unfold len_utf8; rw [if_pos ha]
    have hw : encWritten v = [v] := encWritten_ascii v (by omega) ha
    refine ⟨henc, hlength, ?_, ?_⟩
    · rw [hw, h1]
      have hl0 : leadingOnes8 v = 0 := leadingOnes8_ascii v ha
      simp [decode_slice, decode_slice_u32, hl0, from_u32, hv]
    · rw [hw]
      refine decodeUtf8All_one [v] (Except.ok v) ?_ (by simp)
      simp [decodeUtf8Next, (byte_and128 v (by omega)).mpr ha]
  · have h2 : 2 ≤ len_utf8 v := by unfold len_utf8; split_ifs <;> omega
    have hvlt : v < 0x110000 := hv.1
    have hpb : v < 2 ^ (6 * (len_utf8 v - 1)) * 2 ^ (7 - len_utf8 v) :=
      scalar_payload_bound v (by omega) hvlt
    have hw : encWritten v =
        (255 - (255 >>> len_utf8 v) + (v >>> (6 * (len_utf8 v - 1))))
          :: beBytes v (len_utf8 v - 1) := by
      have h := encWritten_canonical v (by omega) (by omega) (by rw [hL]; exact hpb)
      rw [hL] at h
      exact h
    refine ⟨henc, hlength, ?_, ?_⟩
    · rw [hw]
      have hsl := decode_slice_u32_canonical v (len_utf8 v) h2 (by omega) hpb
      simp [decode_slice, hsl, from_u32, hv]
    · rw [hw]
      have hnext := decodeNext_canonical v (len_utf8 v) h2 (by omega) hpb
      rw [if_pos ⟨hv, rfl⟩] at hnext
      exact decodeUtf8All_one _ (Except.ok v) hnext (by simp)

theorem claim1_witness :
    decode_slice (encWritten 0x2665) = some (0x2665, 3) ∧
    decodeUtf8All (encWritten 0x2665) = [Except.ok 0x2665] := by
  have h := claim1_round_trip 0x2665 [0, 0, 0] (by decide)
    (by show len_utf8 0x2665 ≤ 3; decide)
  exact ⟨by simpa using h.2.2.1, h.2.2.2⟩

/-- C3 amended: for every scalar value `v` and every length
`len_utf8 v < l ≤ 6`, the `l`-byte overlong encoding of `v` is rejected by the
lazy decoder, which yields exactly one invalid-sequence outcome.
(`decode_slice`, by contrast, performs no canonical-length check and accepts
such sequences; see the counterexample.) -/
theorem claim3_amended_overlong_rejected_by_lazy (v l : Nat) (hv : isScalar v)
    (hlen : len_utf8 v < l) (h6 : l ≤ 6) :
    decodeUtf8All (overlongBytes v l) = [Except.error ()] := by
  have hlb := len_utf8_bounds v
  have h2 : 2 ≤ l := by omega
  have hvlt : v < 0x110000 := hv.1
  have hpb : v < 2 ^ (6 * (l - 1)) * 2 ^ (7 - l) := by
    have hcap : 2 ^ (5 * (len_utf8 v + 1) + 1) ≤ 2 ^ (6 * (l - 1)) * 2 ^ (7 - l) := by
      rw [← Nat.pow_add]
      exact Nat.pow_le_pow_right (by norm_num) (by omega)
    have hvcap : v < 2 ^ (5 * (len_utf8 v + 1) + 1) := by
      unfold len_utf8
      split_ifs <;> norm_num <;> omega
    omega
  rw [overlongBytes_eq v l h2 h6 hpb]
  have hnext := decodeNext_canonical v l h2 h6 hpb
  rw [if_neg (by rintro ⟨-, hh⟩; omega)] at hnext
  exact decodeUtf8All_one _ (Except.error ()) hnext (by simp)

theorem claim3_witness : decodeUtf8All (overlongBytes 0x41 2) = [Except.error ()] :=
  claim3_amended_overlong_rejected_by_lazy 0x41 2 (by decide) (by decide) (by decide)

/-- C6 amended: for every `x < 0x80000000` and a buffer of at least 6 bytes,
`try_encode_utf8` writes exactly `l` bytes where `l` follows the fixed
thresholds (1 below `0x80`, …, 6 from `0x4000000`), returning the written
sub-buffer of length `l`; for `x ≥ 0x80000000` it instead returns `None` (see
the counterexample and C9). -/
theorem claim6_amended_thresholds (x : Nat) (bs : List Nat) (hx : x < 2 ^ 31)
    (hbs : 6 ≤ bs.length) :
    (try_encode_utf8 x bs).1 = some (encWritten x) ∧
    (encWritten x).length = specRequiredLen x ∧
    (try_encode_utf8 x bs).2 = encWritten x ++ bs.drop (specRequiredLen x) := by
  have hL : encLen x = specRequiredLen x := by
    have h := encLen_eq x (by omega)
    rwa [if_pos hx] at h
  have hspec : 1 ≤ specRequiredLen x ∧ specRequiredLen x ≤ 6 := by
    unfold specRequiredLen; split_ifs <;> omega
  have hlength : (encWritten x).length = specRequiredLen x := by
    rw [encWritten_eq]
    simp [beBytes_length]
    omega
  refine ⟨?_, hlength, ?_⟩
  · simp only [try_encode_utf8]
    rw [if_neg (by omega : ¬bs.length < encLen x), if_neg (by omega : ¬encLen x = 0)]
  · simp only [try_encode_utf8]
    rw [if_neg (by omega : ¬bs.length < encLen x), if_neg (by omega : ¬encLen x = 0), hL]

theorem claim6_witness :
    (try_encode_utf8 0x4000000 [0, 0, 0, 0, 0, 0]).1 = some (encWritten 0x4000000) ∧
    (encWritten 0x4000000).length = 6 := by
  have h := claim6_amended_thresholds 0x4000000 [0, 0, 0, 0, 0, 0] (by norm_num) (by norm_num)
  refine ⟨h.1, ?_⟩
  rw [h.2.1]
  norm_num [specRequiredLen]

/-- A successful continuation loop consumes exactly `k` bytes, leaves the rest,
and computes the same fold the slice decoder performs over those bytes. -/
theorem contAccum_ok_spec : ∀ (k x0 x : Nat) (rest rest' : List Nat),
    contAccum k x0 rest = .ok (x, rest') →
    k ≤ rest.length ∧ rest' = rest.drop k ∧
      (rest.take k).foldl (fun x b => (x <<< 6 % 2 ^ 32) ||| (b &&& 0x3F)) x0 = x := by
  intro k
  induction k with
  | zero =>
    intro x0 x rest rest' h
    rw [contAccum] at h
    simp only [Except.ok.injEq, Prod.mk.injEq] at h
    obtain ⟨rfl, rfl⟩ := h
    simp
  | succ k ih =>
    intro x0 x rest rest' h
    cases rest with
    | nil => simp [contAccum] at h
    | cons b tl =>
      rw [contAccum] at h
      by_cases hb : b &&& 0xC0 = 0x80
      · rw [if_pos hb] at h
        obtain ⟨hk, hd, hf⟩ := ih _ _ _ _ h
        refine ⟨by simpa using Nat.succ_le_succ hk, ?_, ?_⟩
        · simpa using hd
        · simpa [List.take_succ_cons, List.foldl_cons] using hf
      · rw [if_neg hb] at h
        simp at h

/-- C2 amended: the agreement between `decode_slice` and the lazy decoder holds
in one direction only: whenever the lazy decoder's first pull yields `Ok c`
consuming `n` bytes, `decode_slice` on the same buffer returns `Some (c, n)`
with `n ≥ 1`.  The converse fails: `decode_slice` omits the leading-byte-class,
continuation-shape, and canonical-length checks, so it can succeed where the
lazy decoder reports an invalid sequence (see the counterexample). -/
theorem claim2_amended_slice_refines_lazy (bs : List Nat) (hb : ∀ b ∈ bs, b < 256)
    (c : Nat) (rest : List Nat)
    (h : decodeUtf8Next bs = some (Except.ok c, rest)) :
    decode_slice bs = some (c, bs.length - rest.length) ∧
    1 ≤ bs.length - rest.length := by
  cases bs with
  | nil => simp [decodeUtf8Next] at h
  | cons b tl =>
    have hb0 : b < 256 := hb b (by simp)
    simp only [decodeUtf8Next] at h
    by_cases hA : b &&& 0x80 = 0
    · rw [if_pos hA] at h
      simp only [Option.some.injEq, Prod.mk.injEq, Except.ok.injEq] at h
      obtain ⟨rfl, rfl⟩ := h
      have hlt : b < 128 := (byte_and128 b hb0).mp hA
      have hl0 : leadingOnes8 b = 0 := leadingOnes8_ascii b hlt
      have hs : isScalar b := ⟨by omega, fun hcon => by omega⟩
      have hn : (b :: tl).length - tl.length = 1 := by simp
      rw [hn]
      refine ⟨?_, by omega⟩
      simp [decode_slice, decode_slice_u32, hl0, from_u32, hs]
    · rw [if_neg hA] at h
      by_cases hl : leadingOnes8 b < 2 ∨ 6 < leadingOnes8 b
      · rw [if_pos hl] at h
        simp at h
      · rw [if_neg hl] at h
        cases hacc : contAccum (leadingOnes8 b - 1) (b &&& (0x7F >>> leadingOnes8 b)) tl with
        | error r =>
          rw [hacc] at h
          have h' : some ((Except.error () : Except Unit Nat), r)
              = some (Except.ok c, rest) := h
          simp at h'
        | ok p =>
          obtain ⟨x, rest2⟩ := p
          rw [hacc] at h
          have h2 : (match from_u32 x with
              | some c => if leadingOnes8 b = len_utf8 c then some (Except.ok c, rest2)
                          else some ((Except.error () : Except Unit Nat), rest2)
              | none => some (Except.error (), rest2)) = some (Except.ok c, rest) := h
          by_cases hs : isScalar x
          · rw [show from_u32 x = some x from by simp [from_u32, hs]] at h2
            have h' : (if leadingOnes8 b = len_utf8 x then some (Except.ok x, rest2)
                else some ((Except.error () : Except Unit Nat), rest2))
                = some (Except.ok c, rest) := h2
            by_cases hlx : leadingOnes8 b = len_utf8 x
            · rw [if_pos hlx] at h'
              simp only [Option.some.injEq, Prod.mk.injEq, Except.ok.injEq] at h'
              obtain ⟨rfl, rfl⟩ := h'
              obtain ⟨hk, hd, hf⟩ := contAccum_ok_spec _ _ _ _ _ hacc
              have hlb := len_utf8_bounds x
              have hll : 2 ≤ leadingOnes8 b ∧ leadingOnes8 b ≤ 6 := by
                rcases Nat.lt_or_ge (leadingOnes8 b) 2 with hcase | hcase
                · exact absurd (Or.inl hcase) hl
                · refine ⟨hcase, ?_⟩
                  rcases Nat.lt_or_ge 6 (leadingOnes8 b) with hcase2 | hcase2
                  · exact absurd (Or.inr hcase2) hl
                  · exact hcase2
              have hdroplen : rest2.length = tl.length - (leadingOnes8 b - 1) := by
                rw [hd, List.length_drop]
              have hn : (b :: tl).length - rest2.length = leadingOnes8 b := by
                simp only [List.length_cons]
                omega
              rw [hn]
              refine ⟨?_, by omega⟩
              simp only [decode_slice, decode_slice_u32]
              rw [if_neg (by omega : ¬tl.length + 1 < leadingOnes8 b)]
              rw [if_neg (by omega : ¬leadingOnes8 b = 0), hf]
              simp [from_u32, hs]
            · rw [if_neg hlx] at h'
              simp at h'
          · rw [show from_u32 x = none from by simp [from_u32, hs]] at h2
            have h' : some ((Except.error () : Except Unit Nat), rest2)
                = some (Except.ok c, rest) := h2
            simp at h'

theorem claim2_witness :
    decode_slice [0xE2, 0x99, 0xA5, 0x41] = some (0x2665, 3) := by
  have h := claim2_amended_slice_refines_lazy [0xE2, 0x99, 0xA5, 0x41]
    (by decide) 0x2665 [0x41] rfl
  simpa using h.1

end UtfRs
